import Mathlib

/-!
Verification of the filter-expression compiler (`src/expr.c`) and the
`w2v` demo CLI (`src/w2v.c`) of the redis-for-numpy repository.

The C sources are shallowly embedded: C strings become `List Char`
(the terminating NUL is the end of the list), pointer offsets
`es->p - es->expr` become `n - rem.length` where `n` is the full input
length and `rem` the remaining suffix, and functions that report errors
through `errpos` become `Except Nat` values carrying the byte offset.
-/

namespace Expr

/-- ASCII `isdigit` as used by the C locale. -/
def isDigitC (c : Char) : Bool := '0' ≤ c && c ≤ '9'

/-- ASCII `isalpha` as used by the C locale. -/
def isAlphaC (c : Char) : Bool := ('a' ≤ c && c ≤ 'z') || ('A' ≤ c && c ≤ 'Z')

/-- ASCII `isspace` as used by the C locale. -/
def isSpaceC (c : Char) : Bool :=
  c = ' ' || c = '\t' || c = '\n' || c = '\x0b' || c = '\x0c' || c = '\r'

/-- `EXPR_OP_SPECIALCHARS`, the characters "+-*%/!()<>=|&" from expr.c. -/
def isSpecialC (c : Char) : Bool :=
  (['+', '-', '*', '%', '/', '!', '(', ')', '<', '>', '=', '|', '&']).contains c

/-- The `EXPR_OP_*` opcodes of expr.c. -/
inductive ExprOp where
  | oparen | cparen | onot | pow | mult | div | mod | sum | diff
  | gt | gte | lt | lte | eq | neq | opin | opand | opor
deriving DecidableEq, Repr

/-- One row of `ExprOptable`: operator name, the `oplen` used by `memcmp`,
opcode, precedence and arity. -/
structure OpEntry where
  opname : List Char
  oplen : Nat
  opcode : ExprOp
  precedence : Int
  arity : Int
deriving DecidableEq, Repr

/-- The `ExprOptable` of expr.c, in source order. The `"&& "` row keeps the
trailing space of the source but, exactly as in the source, its `oplen` is 2,
so only the first two characters take part in the `memcmp`. -/
def ExprOptable : List OpEntry := [
  ⟨['('], 1, .oparen, 7, 0⟩,
  ⟨[')'], 1, .cparen, 7, 0⟩,
  ⟨['!'], 1, .onot, 6, 1⟩,
  ⟨['n', 'o', 't'], 3, .onot, 6, 1⟩,
  ⟨['*', '*'], 2, .pow, 5, 2⟩,
  ⟨['*'], 1, .mult, 4, 2⟩,
  ⟨['/'], 1, .div, 4, 2⟩,
  ⟨['%'], 1, .mod, 4, 2⟩,
  ⟨['+'], 1, .sum, 3, 2⟩,
  ⟨['-'], 1, .diff, 3, 2⟩,
  ⟨['>'], 1, .gt, 2, 2⟩,
  ⟨['>', '='], 2, .gte, 2, 2⟩,
  ⟨['<'], 1, .lt, 2, 2⟩,
  ⟨['<', '='], 2, .lte, 2, 2⟩,
  ⟨['=', '='], 2, .eq, 2, 2⟩,
  ⟨['!', '='], 2, .neq, 2, 2⟩,
  ⟨['i', 'n'], 2, .opin, 2, 2⟩,
  ⟨['a', 'n', 'd'], 3, .opand, 1, 2⟩,
  ⟨['&', '&', ' '], 2, .opand, 1, 2⟩,
  ⟨['o', 'r'], 2, .opor, 0, 2⟩,
  ⟨['|', '|'], 2, .opor, 0, 2⟩ ]

/-- `exprGetOpPrecedence`: first table row with the given opcode, else -1. -/
def exprGetOpPrecedence (o : ExprOp) : Int :=
  match (ExprOptable.find? (fun e => e.opcode = o)) with
  | some e => e.precedence
  | none => -1

/-- `exprGetOpArity`: first table row with the given opcode, else -1. -/
def exprGetOpArity (o : ExprOp) : Int :=
  match (ExprOptable.find? (fun e => e.opcode = o)) with
  | some e => e.arity
  | none => -1

/-- The best-match scan over `ExprOptable` inside
`exprParseOperatorOrSelector`: a row is a candidate when its `oplen` is at
most `matchlen` and its first `oplen` characters equal the input's; a
candidate replaces the current best only when strictly longer. -/
def findOpGo : List OpEntry → List Char → Option (ExprOp × Nat) → Option (ExprOp × Nat)
  | [], _, best => best
  | e :: es, run, best =>
    let bl : Nat := match best with | none => 0 | some (_, b) => b
    if e.oplen ≤ run.length ∧ run.take e.oplen = e.opname.take e.oplen ∧ bl < e.oplen
    then findOpGo es run (some (e.opcode, e.oplen))
    else findOpGo es run best

/-- Best operator match for a scanned run of operator characters. `none`
models `bestlen == 0`, i.e. a syntax error. -/
def findOp (run : List Char) : Option (ExprOp × Nat) := findOpGo ExprOptable run none

/-- Data carried by an `exprtoken`, minus the offset. Numbers keep the
characters collected by `exprParseNumber` (literal digits with an optional
leading minus sign); the claims under study never depend on the `strtod`
value itself. -/
inductive TokData where
  | num (s : List Char)
  | str (s : List Char)
  | sel (s : List Char)
  | op (o : ExprOp)
  | eof
deriving DecidableEq, Repr

/-- An `exprtoken` together with its recorded offset. As in expr.c line 337,
the offset stored with a token is `es->p - es->expr` measured right after the
token was consumed. -/
structure Tok where
  data : TokData
  offset : Nat
deriving DecidableEq, Repr

/-- The character-collecting loop of `exprParseNumber`: consume digits (and a
minus sign in first position only); trying to store a 64th character sets the
syntax error and breaks without consuming it. Returns the collected
characters, the remaining input and the error flag. -/
def exprParseNumberGo : List Char → Nat → List Char → (List Char × List Char × Bool)
  | [], _, acc => (acc, [], false)
  | c :: rest, idx, acc =>
    if isDigitC c = true ∨ (idx = 0 ∧ c = '-') then
      if idx = 63 then (acc, c :: rest, true)
      else exprParseNumberGo rest (idx + 1) (acc ++ [c])
    else (acc, c :: rest, false)

/-- `exprParseNumber`: collect the characters, then model the trailing
`strtod` check, which fails exactly when a lone minus sign was collected. -/
def exprParseNumber (rem : List Char) : (List Char × List Char × Bool) :=
  let r := exprParseNumberGo rem 0 []
  (r.1, r.2.1, r.2.2 || decide (r.1 = ['-']))

/-- The scanning loop of `exprParseString`, entered after the opening quote:
a backslash followed by any character is consumed raw; the matching quote
closes the string; running out of input is the unterminated-string error. -/
def scanString (q : Char) : List Char → Option (List Char × List Char)
  | [] => none
  | [c] => if c = q then some ([], []) else none
  | c :: d :: rest2 =>
    if c = '\\' then (scanString q rest2).map (fun pr => (c :: d :: pr.1, pr.2))
    else if c = q then some ([], d :: rest2)
    else (scanString q (d :: rest2)).map (fun pr => (c :: pr.1, pr.2))

/-- The operator/selector character scan: letters and special characters. -/
def isOpCharC (c : Char) : Bool := isAlphaC c || isSpecialC c

/-- `exprParseOperatorOrSelector`. On a leading dot, the token is a selector
whose text includes the dot. Otherwise the scanned run is matched against
the operator table; on success the input pointer is reset to
`start + bestlen`, on failure (`none`) it stays after the scanned run,
which the caller uses as the error position. -/
def exprParseOperatorOrSelector (rem : List Char) : Option TokData × List Char :=
  match rem with
  | c :: rest =>
    if c = '.' then
      (some (.sel ('.' :: rest.takeWhile isOpCharC)), rest.dropWhile isOpCharC)
    else
      match findOp ((c :: rest).takeWhile isOpCharC) with
      | some (o, bl) => (some (.op o), (c :: rest).drop bl)
      | none => (none, (c :: rest).dropWhile isOpCharC)
  | [] =>
      match findOp (([] : List Char).takeWhile isOpCharC) with
      | some (o, bl) => (some (.op o), ([] : List Char).drop bl)
      | none => (none, [])

/-- The `minus_is_number` flag of `exprTokenize`: set when there is no
previous token, or the previous token is an operator other than `)`. -/
def minusIsNumber (acc : List Tok) : Bool :=
  match acc.getLast? with
  | none => true
  | some t =>
    match t.data with
    | .op o => decide (o ≠ .cparen)
    | _ => false

/-- Whether the character after a leading minus is a digit (`isdigit(es->p[1])`;
the NUL at end of input is not a digit). -/
def digitHead (rest : List Char) : Bool :=
  match rest with
  | [] => false
  | c :: _ => isDigitC c

/-- Result of one iteration of the tokenizer loop. -/
inductive StepRes where
  | err (pos : Nat)
  | tokOk (t : Tok) (rem2 : List Char)
  | eofTok (t : Tok)
deriving DecidableEq, Repr

/-- One iteration of the main loop of `exprTokenize`: skip spaces, then
dispatch on the current character exactly as expr.c lines 311-330 do.
`n` is the length of the whole expression, so `n - rem.length` is
`es->p - es->expr`. -/
def tokStep (n : Nat) (acc : List Tok) (rem : List Char) : StepRes :=
  match rem.dropWhile isSpaceC with
  | [] => .eofTok ⟨.eof, n⟩
  | c :: rest =>
    if isDigitC c = true ∨ (minusIsNumber acc = true ∧ c = '-' ∧ digitHead rest = true) then
      match exprParseNumber (c :: rest) with
      | (chars, rem2, er) =>
        if er = true then .err (n - rem2.length)
        else .tokOk ⟨.num chars, n - rem2.length⟩ rem2
    else if c = '"' ∨ c = '\'' then
      match scanString c rest with
      | none => .err n
      | some (s, rem2) => .tokOk ⟨.str s, n - rem2.length⟩ rem2
    else if c = '.' ∨ isAlphaC c = true ∨ isSpecialC c = true then
      match exprParseOperatorOrSelector (c :: rest) with
      | (some d, rem2) => .tokOk ⟨d, n - rem2.length⟩ rem2
      | (none, rem2) => .err (n - rem2.length)
    else .err (n - (c :: rest).length)

/-- The main loop of `exprTokenize`, with explicit fuel. Every iteration but
the final one consumes at least one character, so fuel `rem.length + 1` is
always enough (proved below as `exprTokenizeLoop_fuel`). -/
def exprTokenizeLoop (n : Nat) : Nat → List Char → List Tok → Except Nat (List Tok)
  | 0, _, _ => .error 0
  | fuel + 1, rem, acc =>
    match tokStep n acc rem with
    | .err p => .error p
    | .eofTok t => .ok (acc ++ [t])
    | .tokOk t rem2 => exprTokenizeLoop n fuel rem2 (acc ++ [t])

/-- `exprTokenize`: run the loop on the whole expression. On success the
token list always ends with the EOF token. -/
def exprTokenize (e : List Char) : Except Nat (List Tok) :=
  exprTokenizeLoop e.length (e.length + 1) e []

/-- The compiler state threaded through the shunting-yard pass: the operator
stack (`es->ops_stack`, top first, opcode with recorded offset), the program
built so far (`es->program`, in emission order) and the `stack_items`
counter of `exprCompile`. -/
structure YardSt where
  ops : List (ExprOp × Nat)
  program : List Tok
  stackItems : Int
deriving DecidableEq, Repr

/-- The pop loop run by `exprProcessOperator` for a closing parenthesis:
pop operators to the program (checking arity against `stack_items`) until
the matching `(` is found; an empty stack reports the error at the `)`
token's offset. -/
def cparenLoop : List (ExprOp × Nat) → List Tok → Int → Nat →
    Except Nat (List (ExprOp × Nat) × List Tok × Int)
  | [], _, _, off => .error off
  | (o, toff) :: rest, prog, si, off =>
    if o = .oparen then .ok (rest, prog, si)
    else if si < exprGetOpArity o then .error toff
    else cparenLoop rest (prog ++ [⟨.op o, toff⟩]) (si - exprGetOpArity o + 1) off

/-- The pop loop run by `exprProcessOperator` for an ordinary operator:
pop operators of precedence at least the incoming one (stopping at `(`),
emitting them to the program under the arity check. -/
def popGELoop (curp : Int) : List (ExprOp × Nat) → List Tok → Int →
    Except Nat (List (ExprOp × Nat) × List Tok × Int)
  | [], prog, si => .ok ([], prog, si)
  | (o, toff) :: rest, prog, si =>
    if o = .oparen then .ok ((o, toff) :: rest, prog, si)
    else if exprGetOpPrecedence o < curp then .ok ((o, toff) :: rest, prog, si)
    else if si < exprGetOpArity o then .error toff
    else popGELoop curp rest (prog ++ [⟨.op o, toff⟩]) (si - exprGetOpArity o + 1)

/-- `exprProcessOperator`: `(` is pushed as a marker; `)` pops until the
matching `(`; any other operator first pops the higher-or-equal precedence
operators and is then pushed. -/
def exprProcessOperator (st : YardSt) (o : ExprOp) (off : Nat) : Except Nat YardSt :=
  if o = .oparen then .ok ⟨(o, off) :: st.ops, st.program, st.stackItems⟩
  else if o = .cparen then
    match cparenLoop st.ops st.program st.stackItems off with
    | .error p => .error p
    | .ok (ops2, prog2, si2) => .ok ⟨ops2, prog2, si2⟩
  else
    match popGELoop (exprGetOpPrecedence o) st.ops st.program st.stackItems with
    | .error p => .error p
    | .ok (ops2, prog2, si2) => .ok ⟨(o, off) :: ops2, prog2, si2⟩

/-- The token-processing loop of `exprCompile`: values are emitted directly
to the program (incrementing `stack_items`), operators go through
`exprProcessOperator`, and the EOF token stops the loop. -/
def compileTokens : List Tok → YardSt → Except Nat YardSt
  | [], st => .ok st
  | t :: ts, st =>
    match t.data with
    | .eof => .ok st
    | .op o =>
      match exprProcessOperator st o t.offset with
      | .error p => .error p
      | .ok st2 => compileTokens ts st2
    | _ => compileTokens ts ⟨st.ops, st.program ++ [t], st.stackItems + 1⟩

/-- The end-of-input flush of `exprCompile`: pop every remaining operator to
the program; a leftover `(` is an error at its offset, as is an arity
underflow. -/
def flushOps : List (ExprOp × Nat) → List Tok → Int → Except Nat (List Tok × Int)
  | [], prog, si => .ok (prog, si)
  | (o, off) :: rest, prog, si =>
    if o = .oparen then .error off
    else if si < exprGetOpArity o then .error off
    else flushOps rest (prog ++ [⟨.op o, off⟩]) (si - exprGetOpArity o + 1)

/-- `exprCompile`: tokenize, run the shunting-yard pass, flush, and accept
exactly when one value would remain on the execution stack; otherwise the
error offset is the last token's recorded offset. -/
def exprCompile (e : List Char) : Except Nat (List Tok) :=
  match exprTokenize e with
  | .error p => .error p
  | .ok toks =>
    match compileTokens toks ⟨[], [], 0⟩ with
    | .error p => .error p
    | .ok st =>
      match flushOps st.ops st.program st.stackItems with
      | .error p => .error p
      | .ok (prog, si) =>
        if si = 1 then .ok prog
        else .error (toks.getLastD ⟨.eof, 0⟩).offset

/-- One step of the compile-time stack-depth simulation described by the
spec: a value leaves one more item on the stack, an operator consumes its
arity and leaves one result, underflow is rejected. -/
def progStep (si : Int) (t : Tok) : Option Int :=
  match t.data with
  | .op o => if si < exprGetOpArity o then none else some (si - exprGetOpArity o + 1)
  | .eof => some si
  | _ => some (si + 1)

/-- The stack-depth simulation of a postfix program, started from a given
depth; `none` means an underflow was detected. -/
def progDepthFrom : Int → List Tok → Option Int
  | si, [] => some si
  | si, t :: ts =>
    match progStep si t with
    | none => none
    | some si2 => progDepthFrom si2 ts

/-- The stack-depth simulation of a whole postfix program. -/
def progDepth (prog : List Tok) : Option Int := progDepthFrom 0 prog

/-! ### Facts about the operator-table scan -/

theorem findOp_minus (xs : List Char) : findOp ('-' :: xs) = some (.diff, 1) := by
  simp +decide [findOp, findOpGo, ExprOptable, List.take_succ_cons]

theorem findOp_starstar (xs : List Char) : findOp ('*' :: '*' :: xs) = some (.pow, 2) := by
  simp +decide [findOp, findOpGo, ExprOptable, List.take_succ_cons]

theorem findOp_and (xs : List Char) :
    findOp ('a' :: 'n' :: 'd' :: xs) = some (.opand, 3) := by
  simp +decide [findOp, findOpGo, ExprOptable, List.take_succ_cons]

theorem findOp_ampamp (xs : List Char) :
    findOp ('&' :: '&' :: xs) = some (.opand, 2) := by
  simp +decide [findOp, findOpGo, ExprOptable, List.take_succ_cons]

theorem findOp_or (xs : List Char) : findOp ('o' :: 'r' :: xs) = some (.opor, 2) := by
  simp +decide [findOp, findOpGo, ExprOptable, List.take_succ_cons]

theorem findOp_pipes (xs : List Char) : findOp ('|' :: '|' :: xs) = some (.opor, 2) := by
  simp +decide [findOp, findOpGo, ExprOptable, List.take_succ_cons]

theorem findOpGo_pos (es : List OpEntry) (run : List Char) :
    ∀ best, (∀ e ∈ es, 1 ≤ e.oplen) → (∀ o b, best = some (o, b) → 1 ≤ b) →
      ∀ o b, findOpGo es run best = some (o, b) → 1 ≤ b := by
  induction es with
  | nil => intro best _ hbest o b h; exact hbest o b h
  | cons e es ih =>
    intro best hes hbest o b h
    simp only [findOpGo] at h
    split at h
    · exact ih _ (fun x hx => hes x (List.mem_cons_of_mem e hx))
        (fun o2 b2 hb => by
          cases hb; exact hes e (List.mem_cons_self e es)) o b h
    · exact ih _ (fun x hx => hes x (List.mem_cons_of_mem e hx)) hbest o b h

theorem findOp_pos (run : List Char) (o : ExprOp) (b : Nat)
    (h : findOp run = some (o, b)) : 1 ≤ b :=
  findOpGo_pos ExprOptable run none (by decide) (by simp) o b h

/-! ### Facts about the number scanner -/

theorem exprParseNumberGo_suffix_le (rem : List Char) :
    ∀ idx acc, (exprParseNumberGo rem idx acc).2.1.length ≤ rem.length := by
  induction rem with
  | nil => intro idx acc; simp [exprParseNumberGo]
  | cons c r ih =>
    intro idx acc
    simp only [exprParseNumberGo]
    split
    · split
      · simp
      · exact le_trans (ih _ _) (by simp)
    · simp

theorem exprParseNumberGo_digits (ds : List Char) :
    ∀ (rest : List Char) (idx : Nat) (acc : List Char),
    (∀ c ∈ ds, isDigitC c = true) → idx + ds.length ≤ 63 → (1 ≤ idx ∨ ds ≠ []) →
    (∀ c, rest.head? = some c → isDigitC c = false) →
    exprParseNumberGo (ds ++ rest) idx acc = (acc ++ ds, rest, false) := by
  induction ds with
  | nil =>
    intro rest idx acc _ _ hpos hrest
    have hidx : 1 ≤ idx := by
      rcases hpos with h | h
      · exact h
      · exact absurd rfl h
    cases rest with
    | nil => simp [exprParseNumberGo]
    | cons c r =>
      have hc : isDigitC c = false := hrest c rfl
      have : ¬(isDigitC c = true ∨ (idx = 0 ∧ c = '-')) := by
        rintro (h | ⟨h0, _⟩)
        · rw [hc] at h; cases h
        · omega
      simp [exprParseNumberGo, this]
  | cons d ds ih =>
    intro rest idx acc hds hlen _ hrest
    have hd : isDigitC d = true := hds d (by simp)
    have h63 : ¬(idx = 63) := by simp at hlen; omega
    simp only [List.cons_append, exprParseNumberGo, if_pos (Or.inl hd), if_neg h63]
    show exprParseNumberGo (ds ++ rest) (idx + 1) (acc ++ [d]) = (acc ++ d :: ds, rest, false)
    rw [ih rest (idx + 1) (acc ++ [d]) (fun c hc => hds c (by simp [hc]))
      (by simp at hlen ⊢; omega) (Or.inl (by omega)) hrest]
    simp

theorem dropWhile_head_not {α : Type} (p : α → Bool) (l : List α) :
    ∀ c, (l.dropWhile p).head? = some c → p c = false := by
  induction l with
  | nil => simp
  | cons a l ih =>
    intro c h
    by_cases hp : p a = true
    · rw [List.dropWhile_cons, if_pos hp] at h
      exact ih c h
    · rw [List.dropWhile_cons, if_neg hp] at h
      simp at h
      subst h
      simpa using hp

theorem exprParseNumber_minus (rest : List Char) (hd : digitHead rest = true)
    (hlen : (rest.takeWhile isDigitC).length ≤ 62) :
    exprParseNumber ('-' :: rest) =
      ('-' :: rest.takeWhile isDigitC, rest.dropWhile isDigitC, false) := by
  have htw : rest.takeWhile isDigitC ≠ [] := by
    cases rest with
    | nil => simp [digitHead] at hd
    | cons c r =>
      have : isDigitC c = true := hd
      simp [List.takeWhile_cons, this]
  have h1 : exprParseNumberGo ('-' :: rest) 0 [] =
      (['-'] ++ rest.takeWhile isDigitC, rest.dropWhile isDigitC, false) := by
    have hstep : exprParseNumberGo ('-' :: rest) 0 [] = exprParseNumberGo rest 1 ['-'] := by
      simp [exprParseNumberGo]
    rw [hstep]
    conv_lhs => rw [← List.takeWhile_append_dropWhile (p := isDigitC) (l := rest)]
    exact exprParseNumberGo_digits _ _ 1 ['-']
      (fun c hc => List.mem_takeWhile_imp hc) (by omega) (Or.inl le_rfl)
      (dropWhile_head_not _ _)
  unfold exprParseNumber
  rw [h1]
  simp [htw]

theorem exprParseNumber_digits (ds rest : List Char) (hne : ds ≠ [])
    (hds : ∀ c ∈ ds, isDigitC c = true) (hlen : ds.length ≤ 63)
    (hrest : ∀ c, rest.head? = some c → isDigitC c = false) :
    exprParseNumber (ds ++ rest) = (ds, rest, false) := by
  unfold exprParseNumber
  rw [exprParseNumberGo_digits ds rest 0 [] hds (by omega) (Or.inr hne) hrest]
  have : ds ≠ ['-'] := by
    rintro rfl
    have := hds '-' (by simp)
    simp [isDigitC] at this
  simp [this]

/-! ### Consumption bounds and fuel irrelevance for the tokenizer loop -/

theorem scanString_some_lt (q : Char) : ∀ (rem s rem2 : List Char),
    scanString q rem = some (s, rem2) → rem2.length < rem.length := by
  have key : ∀ (n : Nat) (rem : List Char), rem.length ≤ n → ∀ s rem2,
      scanString q rem = some (s, rem2) → rem2.length < rem.length := by
    intro n
    induction n with
    | zero =>
      intro rem hlen s rem2 hscan
      cases rem with
      | nil => simp [scanString] at hscan
      | cons c rest => simp at hlen
    | succ n ih =>
      intro rem hlen s rem2 hscan
      match rem with
      | [] => simp [scanString] at hscan
      | [c] =>
        simp only [scanString] at hscan
        split at hscan
        · simp at hscan
          simp [← hscan.2]
        · cases hscan
      | c :: d :: rest2 =>
        simp only [scanString] at hscan
        split at hscan
        · rcases Option.map_eq_some'.mp hscan with ⟨pr, hpr, heq⟩
          have hrec := ih rest2 (by simp at hlen; omega) pr.1 pr.2 (by rw [hpr])
          have h3 : pr.2.length = rem2.length := congrArg (fun l => l.length) (congrArg Prod.snd heq)
          simp only [List.length_cons]
          omega
        · split at hscan
          · simp at hscan
            simp [← hscan.2]
          · rcases Option.map_eq_some'.mp hscan with ⟨pr, hpr, heq⟩
            have hrec := ih (d :: rest2) (by simp at hlen ⊢; omega) pr.1 pr.2 (by rw [hpr])
            have h3 : pr.2.length = rem2.length :=
              congrArg (fun l => l.length) (congrArg Prod.snd heq)
            simp only [List.length_cons] at hrec ⊢
            omega
  intro rem s rem2 h
  exact key rem.length rem le_rfl s rem2 h

/-! ### Behavior of the operator/selector parser on specific inputs -/

theorem parseOpSel_starstar (xs : List Char) :
    exprParseOperatorOrSelector ('*' :: '*' :: xs) = (some (.op .pow), xs) := by
  have ht : ('*' :: '*' :: xs).takeWhile isOpCharC
      = '*' :: '*' :: xs.takeWhile isOpCharC := by
    simp +decide [List.takeWhile_cons]
  simp only [exprParseOperatorOrSelector]
  rw [if_neg (by decide), ht, findOp_starstar]
  simp

theorem parseOpSel_ampamp (xs : List Char) :
    exprParseOperatorOrSelector ('&' :: '&' :: xs) = (some (.op .opand), xs) := by
  have ht : ('&' :: '&' :: xs).takeWhile isOpCharC
      = '&' :: '&' :: xs.takeWhile isOpCharC := by
    simp +decide [List.takeWhile_cons]
  simp only [exprParseOperatorOrSelector]
  rw [if_neg (by decide), ht, findOp_ampamp]
  simp

theorem parseOpSel_and (xs : List Char) :
    exprParseOperatorOrSelector ('a' :: 'n' :: 'd' :: xs) = (some (.op .opand), xs) := by
  have ht : ('a' :: 'n' :: 'd' :: xs).takeWhile isOpCharC
      = 'a' :: 'n' :: 'd' :: xs.takeWhile isOpCharC := by
    simp +decide [List.takeWhile_cons]
  simp only [exprParseOperatorOrSelector]
  rw [if_neg (by decide), ht, findOp_and]
  simp

theorem parseOpSel_pipes (xs : List Char) :
    exprParseOperatorOrSelector ('|' :: '|' :: xs) = (some (.op .opor), xs) := by
  have ht : ('|' :: '|' :: xs).takeWhile isOpCharC
      = '|' :: '|' :: xs.takeWhile isOpCharC := by
    simp +decide [List.takeWhile_cons]
  simp only [exprParseOperatorOrSelector]
  rw [if_neg (by decide), ht, findOp_pipes]
  simp

theorem parseOpSel_or (xs : List Char) :
    exprParseOperatorOrSelector ('o' :: 'r' :: xs) = (some (.op .opor), xs) := by
  have ht : ('o' :: 'r' :: xs).takeWhile isOpCharC
      = 'o' :: 'r' :: xs.takeWhile isOpCharC := by
    simp +decide [List.takeWhile_cons]
  simp only [exprParseOperatorOrSelector]
  rw [if_neg (by decide), ht, findOp_or]
  simp

theorem parseOpSel_minus (xs : List Char) :
    exprParseOperatorOrSelector ('-' :: xs) = (some (.op .diff), xs) := by
  have ht : ('-' :: xs).takeWhile isOpCharC = '-' :: xs.takeWhile isOpCharC := by
    simp +decide [List.takeWhile_cons]
  simp only [exprParseOperatorOrSelector]
  rw [if_neg (by decide), ht, findOp_minus]
  simp

/-! ### Behavior of one tokenizer step -/

theorem isDigitC_not_space (c : Char) (h : isDigitC c = true) : isSpaceC c = false := by
  cases hx : isSpaceC c with
  | false => rfl
  | true =>
    exfalso
    simp [isSpaceC] at hx
    rcases hx with ((((rfl | rfl) | rfl) | rfl) | rfl) | rfl <;> exact absurd h (by decide)

theorem tokStep_nil (n : Nat) (acc : List Tok) : tokStep n acc [] = .eofTok ⟨.eof, n⟩ := rfl

theorem tokStep_num (n : Nat) (acc : List Tok) (ds rest : List Char) (hne : ds ≠ [])
    (hds : ∀ c ∈ ds, isDigitC c = true) (hlen : ds.length ≤ 63)
    (hrest : ∀ c, rest.head? = some c → isDigitC c = false) :
    tokStep n acc (ds ++ rest) = .tokOk ⟨.num ds, n - rest.length⟩ rest := by
  obtain ⟨d, ds2, rfl⟩ : ∃ d ds2, ds = d :: ds2 := by
    cases ds with
    | nil => exact absurd rfl hne
    | cons d ds2 => exact ⟨d, ds2, rfl⟩
  have hd : isDigitC d = true := hds d (by simp)
  have hdw : ((d :: ds2) ++ rest).dropWhile isSpaceC = d :: (ds2 ++ rest) := by
    simp [List.dropWhile_cons, isDigitC_not_space d hd]
  have hp : exprParseNumber (d :: (ds2 ++ rest)) = (d :: ds2, rest, false) := by
    have := exprParseNumber_digits (d :: ds2) rest hne hds hlen hrest
    simpa using this
  simp only [tokStep, hdw, hp]
  rw [if_pos (Or.inl hd)]
  simp

theorem tokStep_pow (n : Nat) (acc : List Tok) (xs : List Char) :
    tokStep n acc ('*' :: '*' :: xs) = .tokOk ⟨.op .pow, n - xs.length⟩ xs := by
  have hdw : ('*' :: '*' :: xs).dropWhile isSpaceC = '*' :: '*' :: xs := by
    simp +decide [List.dropWhile_cons]
  simp only [tokStep, hdw]
  simp +decide [parseOpSel_starstar]

theorem tokStep_minus_number (n : Nat) (acc : List Tok) (rest : List Char)
    (hmn : minusIsNumber acc = true) (hd : digitHead rest = true)
    (hlen : (rest.takeWhile isDigitC).length ≤ 62) :
    tokStep n acc ('-' :: rest) =
      .tokOk ⟨.num ('-' :: rest.takeWhile isDigitC), n - (rest.dropWhile isDigitC).length⟩
        (rest.dropWhile isDigitC) := by
  have hdw : ('-' :: rest).dropWhile isSpaceC = '-' :: rest := by
    simp +decide [List.dropWhile_cons]
  simp only [tokStep, hdw]
  simp +decide [hmn, hd, exprParseNumber_minus rest hd hlen]

theorem tokStep_minus_op (n : Nat) (acc : List Tok) (rest : List Char)
    (h : minusIsNumber acc = false ∨ digitHead rest = false) :
    tokStep n acc ('-' :: rest) = .tokOk ⟨.op .diff, n - rest.length⟩ rest := by
  have hdw : ('-' :: rest).dropWhile isSpaceC = '-' :: rest := by
    simp +decide [List.dropWhile_cons]
  simp only [tokStep, hdw]
  rcases h with h | h <;> simp +decide [h, parseOpSel_minus]

/-! ### The tokenizer loop consumes input, so fuel is irrelevant -/

theorem dropWhile_length_le {α : Type} (p : α → Bool) (l : List α) :
    (l.dropWhile p).length ≤ l.length := by
  induction l with
  | nil => simp
  | cons a l ih =>
    rw [List.dropWhile_cons]
    split
    · exact le_trans ih (by simp)
    · simp

theorem tokStep_tokOk_lt (n : Nat) (acc : List Tok) (rem : List Char) (t : Tok)
    (rem2 : List Char) (h : tokStep n acc rem = .tokOk t rem2) :
    rem2.length < rem.length := by
  have hle : (rem.dropWhile isSpaceC).length ≤ rem.length := dropWhile_length_le _ _
  cases hdw : rem.dropWhile isSpaceC with
  | nil => simp only [tokStep, hdw] at h; cases h
  | cons c rest =>
    rw [hdw] at hle
    simp only [tokStep, hdw] at h
    simp only [List.length_cons] at hle
    by_cases h1 : isDigitC c = true ∨ (minusIsNumber acc = true ∧ c = '-' ∧ digitHead rest = true)
    · rw [if_pos h1] at h
      have hguard : isDigitC c = true ∨ (0 = 0 ∧ c = '-') := by
        rcases h1 with h1 | ⟨_, h1, _⟩
        · exact Or.inl h1
        · exact Or.inr ⟨rfl, h1⟩
      have hgo : exprParseNumberGo (c :: rest) 0 [] = exprParseNumberGo rest 1 [c] := by
        conv_lhs => rw [exprParseNumberGo]
        rw [if_pos hguard, if_neg (show ¬(0 = 63) by decide)]
        simp
      have hlen2 : (exprParseNumber (c :: rest)).2.1.length ≤ rest.length := by
        simp only [exprParseNumber, hgo]
        exact exprParseNumberGo_suffix_le rest 1 [c]
      cases hp : exprParseNumber (c :: rest) with
      | mk chars pr =>
        obtain ⟨r2, er⟩ := pr
        rw [hp] at h hlen2
        cases er with
        | true => simp at h
        | false =>
          have h' : StepRes.tokOk ⟨.num chars, n - r2.length⟩ r2 = .tokOk t rem2 := h
          injection h' with ha hb
          subst hb
          simp at hlen2
          omega
    · rw [if_neg h1] at h
      by_cases h2 : c = '"' ∨ c = '\''
      · rw [if_pos h2] at h
        cases hs : scanString c rest with
        | none => rw [hs] at h; cases h
        | some pr =>
          obtain ⟨s, r2⟩ := pr
          rw [hs] at h
          have h' : StepRes.tokOk ⟨.str s, n - r2.length⟩ r2 = .tokOk t rem2 := h
          injection h' with ha hb
          subst hb
          have := scanString_some_lt c rest s r2 hs
          omega
      · rw [if_neg h2] at h
        by_cases h3 : c = '.' ∨ isAlphaC c = true ∨ isSpecialC c = true
        · rw [if_pos h3] at h
          by_cases hc : c = '.'
          · subst hc
            simp only [exprParseOperatorOrSelector, if_pos rfl] at h
            have h' : StepRes.tokOk
                ⟨.sel ('.' :: rest.takeWhile isOpCharC), n - (rest.dropWhile isOpCharC).length⟩
                (rest.dropWhile isOpCharC) = .tokOk t rem2 := h
            injection h' with ha hb
            subst hb
            have := dropWhile_length_le isOpCharC rest
            omega
          · simp only [exprParseOperatorOrSelector] at h
            rw [if_neg hc] at h
            cases hf : findOp ((c :: rest).takeWhile isOpCharC) with
            | none => rw [hf] at h; cases h
            | some pr =>
              obtain ⟨o, bl⟩ := pr
              rw [hf] at h
              have h' : StepRes.tokOk ⟨.op o, n - ((c :: rest).drop bl).length⟩
                  ((c :: rest).drop bl) = .tokOk t rem2 := h
              injection h' with ha hb
              subst hb
              have hbl := findOp_pos _ o bl hf
              have hdrop : ((c :: rest).drop bl).length = (c :: rest).length - bl :=
                List.length_drop bl (c :: rest)
              simp only [List.length_cons] at hdrop
              omega
        · rw [if_neg h3] at h
          cases h

theorem exprTokenizeLoop_fuel (n : Nat) : ∀ (k fuel : Nat) (rem : List Char) (acc : List Tok),
    rem.length ≤ k → rem.length < fuel →
    exprTokenizeLoop n fuel rem acc = exprTokenizeLoop n (rem.length + 1) rem acc := by
  intro k
  induction k with
  | zero =>
    intro fuel rem acc hk hf
    cases fuel with
    | zero => omega
    | succ f =>
      have : rem = [] := by
        cases rem with
        | nil => rfl
        | cons a l => simp at hk
      subst this
      simp [exprTokenizeLoop, tokStep_nil]
  | succ k ih =>
    intro fuel rem acc hk hf
    cases fuel with
    | zero => omega
    | succ f =>
      simp only [exprTokenizeLoop]
      cases hstep : tokStep n acc rem with
      | err p => simp only [hstep]
      | eofTok t => simp only [hstep]
      | tokOk t rem2 =>
        simp only [hstep]
        have hlt := tokStep_tokOk_lt n acc rem t rem2 hstep
        rw [ih f rem2 (acc ++ [t]) (by omega) (by omega),
          ih rem.length rem2 (acc ++ [t]) (by omega) (by omega)]

theorem exprTokenizeLoop_fuel' (n fuel : Nat) (rem : List Char) (acc : List Tok)
    (h : rem.length < fuel) :
    exprTokenizeLoop n fuel rem acc = exprTokenizeLoop n (rem.length + 1) rem acc :=
  exprTokenizeLoop_fuel n rem.length fuel rem acc le_rfl h

/-! ### Claim C3 -/

/-- Claim C3, counterexample: the claim says compiling "1 in [1,2,3]" succeeds,
but the tokenizer of src/expr.c has no case for `[` (it is not a digit, quote,
dot, letter or special character), so compilation fails with a syntax error at
the offset of the `[` (byte 5). -/
theorem claim_C3_cx :
    exprCompile ['1', ' ', 'i', 'n', ' ', '[', '1', ',', '2', ',', '3', ']'] = .error 5 := by
  rfl

/-- Claim C3, amended: tuple literals are not supported by this version of the
compiler; both "1 in [1,2,3]" and "'x' in [1,2,3]" are rejected with a syntax
error at the `[`, while "1 in 5" compiles successfully because the compiler
performs no type checking of `in`'s right operand. -/
theorem claim_C3 :
    exprCompile ['1', ' ', 'i', 'n', ' ', '[', '1', ',', '2', ',', '3', ']'] = .error 5 ∧
    exprCompile ['\'', 'x', '\'', ' ', 'i', 'n', ' ', '[', '1', ',', '2', ',', '3', ']'] =
      .error 7 ∧
    exprCompile ['1', ' ', 'i', 'n', ' ', '5'] =
      .ok [⟨.num ['1'], 1⟩, ⟨.num ['5'], 6⟩, ⟨.op .opin, 4⟩] := by
  exact ⟨rfl, rfl, rfl⟩

/-! ### Claim C4 -/

/-- Claim C4: the tokenizer's operator matcher accepts the two-character
operator `&&` with no trailing space required (the `"&& "` table row is
compared through `memcmp` with `oplen = 2` only), producing the same opcode
`EXPR_OP_AND` as `and`, and likewise `||` produces `EXPR_OP_OR` like `or`;
precedence is a function of the opcode, with AND at 1 and OR at 0. -/
theorem claim_C4 : ∀ xs : List Char,
    exprParseOperatorOrSelector ('&' :: '&' :: xs) = (some (.op .opand), xs) ∧
    exprParseOperatorOrSelector ('a' :: 'n' :: 'd' :: xs) = (some (.op .opand), xs) ∧
    exprParseOperatorOrSelector ('|' :: '|' :: xs) = (some (.op .opor), xs) ∧
    exprParseOperatorOrSelector ('o' :: 'r' :: xs) = (some (.op .opor), xs) ∧
    exprGetOpPrecedence .opand = 1 ∧ exprGetOpPrecedence .opor = 0 :=
  fun xs => ⟨parseOpSel_ampamp xs, parseOpSel_and xs, parseOpSel_pipes xs,
    parseOpSel_or xs, rfl, rfl⟩

/-! ### Claim C5 -/

/-- Claim C5: a `-` at a token boundary is consumed as the sign of a numeric
literal exactly when `minus_is_number` holds (no previous token, or a previous
operator token other than `)`) and a digit follows; in every other position it
is tokenized as the binary minus operator. The last conjunct identifies the
code's `minus_is_number` flag with the claim's description of it. -/
theorem claim_C5 (n : Nat) (acc : List Tok) (rest : List Char) :
    (minusIsNumber acc = true → digitHead rest = true →
      (rest.takeWhile isDigitC).length ≤ 62 →
      tokStep n acc ('-' :: rest) =
        .tokOk ⟨.num ('-' :: rest.takeWhile isDigitC), n - (rest.dropWhile isDigitC).length⟩
          (rest.dropWhile isDigitC)) ∧
    (minusIsNumber acc = false ∨ digitHead rest = false →
      tokStep n acc ('-' :: rest) = .tokOk ⟨.op .diff, n - rest.length⟩ rest) ∧
    (minusIsNumber acc = true ↔
      (acc.getLast? = none ∨
        ∃ t o, acc.getLast? = some t ∧ t.data = .op o ∧ o ≠ .cparen)) := by
  refine ⟨fun hmn hd hl => tokStep_minus_number n acc rest hmn hd hl,
    fun h => tokStep_minus_op n acc rest h, ?_⟩
  unfold minusIsNumber
  cases hlast : acc.getLast? with
  | none => simp
  | some t =>
    constructor
    · intro h
      have h' : (match t.data with
          | TokData.op o => decide (o ≠ ExprOp.cparen)
          | _ => false) = true := h
      cases htd : t.data with
      | op o =>
        rw [htd] at h'
        simp at h'
        exact Or.inr ⟨t, o, rfl, htd, h'⟩
      | num s => rw [htd] at h'; cases h'
      | str s => rw [htd] at h'; cases h'
      | sel s => rw [htd] at h'; cases h'
      | eof => rw [htd] at h'; cases h'
    · rintro (h | ⟨t2, o2, h1, h2, h3⟩)
      · cases h
      · injection h1 with h1
        subst h1
        show (match t.data with
          | TokData.op o => decide (o ≠ ExprOp.cparen)
          | _ => false) = true
        rw [h2]
        simpa using h3

/-- Claim C5, witness: on input "-1" with no previous token the minus is the
sign of the literal -1; with a previous number token it is the binary minus. -/
theorem claim_C5_wit :
    tokStep 2 [] ['-', '1'] = .tokOk ⟨.num ['-', '1'], 2⟩ [] ∧
    tokStep 2 [⟨.num ['5'], 1⟩] ['-', '1'] = .tokOk ⟨.op .diff, 1⟩ ['1'] := by
  constructor
  · exact (claim_C5 2 [] ['1']).1 rfl rfl (by decide)
  · exact (claim_C5 2 [⟨.num ['5'], 1⟩] ['1']).2.1 (Or.inl rfl)

/-! ### Claim C10 -/

/-- Claim C10: compiling an empty or all-whitespace expression never yields a
program: the token list is just EOF, zero values remain on the simulated
stack, and `exprCompile` reports an error at the EOF offset (the length of
the expression). -/
theorem claim_C10 (e : List Char) (hsp : ∀ c ∈ e, isSpaceC c = true) :
    exprCompile e = .error e.length := by
  have hdw : e.dropWhile isSpaceC = [] := by
    induction e with
    | nil => rfl
    | cons a l ih =>
      rw [List.dropWhile_cons, if_pos (hsp a (by simp))]
      exact ih (fun c hc => hsp c (by simp [hc]))
  have hstep : tokStep e.length [] e = .eofTok ⟨.eof, e.length⟩ := by
    simp only [tokStep, hdw]
  have htok : exprTokenize e = .ok [⟨.eof, e.length⟩] := by
    unfold exprTokenize
    simp only [exprTokenizeLoop, hstep]
    rfl
  simp only [exprCompile, htok]
  rfl

/-- Claim C10, witness: a single space compiles to an error at offset 1. -/
theorem claim_C10_wit : exprCompile [' '] = .error 1 :=
  claim_C10 [' '] (by decide)

/-! ### Claim C6 -/

/-- Claim C6, counterexample: the claim quantifies over every input containing
an unknown character, but an unknown character inside a quoted string is
perfectly legal: `'#'` contains the character `#`, which the tokenizer accepts
in no other position, and yet it compiles successfully. -/
theorem claim_C6_cx :
    ('#' ∈ ['\'', '#', '\''] ∧
      isDigitC '#' = false ∧ isAlphaC '#' = false ∧ isSpecialC '#' = false ∧
      isSpaceC '#' = false ∧ '#' ≠ '.' ∧ '#' ≠ '"' ∧ '#' ≠ '\'') ∧
    (exprCompile ['\'', '#', '\'']).isOk = true := by
  decide

/-- Claim C6, amended: whenever tokenization reaches a dispatch position whose
character is not a digit, quote, dot, letter or special character, it fails
with the byte offset of that character; whenever it reaches an opening quote
whose string is never terminated, it fails with offset `n` (the end of the
expression); and a tokenizer error is returned by `exprCompile` unchanged. -/
theorem claim_C6 :
    (∀ (n fuel : Nat) (rem : List Char) (acc : List Tok) (c : Char) (rest : List Char),
      rem.dropWhile isSpaceC = c :: rest →
      ((isDigitC c = false ∧ isAlphaC c = false ∧ isSpecialC c = false ∧
          c ≠ '.' ∧ c ≠ '"' ∧ c ≠ '\'') →
        exprTokenizeLoop n (fuel + 1) rem acc = .error (n - (c :: rest).length)) ∧
      ((c = '"' ∨ c = '\'') → scanString c rest = none →
        exprTokenizeLoop n (fuel + 1) rem acc = .error n)) ∧
    (∀ (e : List Char) (pos : Nat), exprTokenize e = .error pos → exprCompile e = .error pos) := by
  constructor
  · intro n fuel rem acc c rest hdw
    constructor
    · rintro ⟨hD, hA, hS, hdot, hq1, hq2⟩
      have hcm : c ≠ '-' := by
        rintro rfl
        exact absurd hS (by decide)
      have hstep : tokStep n acc rem = .err (n - (c :: rest).length) := by
        simp only [tokStep, hdw]
        rw [if_neg (by
          rintro (hx | ⟨_, hx, _⟩)
          · rw [hD] at hx; cases hx
          · exact hcm hx)]
        rw [if_neg (by
          rintro (hx | hx)
          · exact hq1 hx
          · exact hq2 hx)]
        rw [if_neg (by
          rintro (hx | hx | hx)
          · exact hdot hx
          · rw [hA] at hx; cases hx
          · rw [hS] at hx; cases hx)]
      simp only [exprTokenizeLoop, hstep]
    · intro hq hscan
      rcases hq with rfl | rfl
      · have hstep : tokStep n acc rem = .err n := by
          simp only [tokStep, hdw]
          rw [if_neg (by rintro (hx | ⟨_, hx, _⟩) <;> exact absurd hx (by decide))]
          rw [if_pos (show True ∨ ('"' : Char) = '\'' from Or.inl trivial)]
          simp only [hscan]
        simp only [exprTokenizeLoop, hstep]
      · have hstep : tokStep n acc rem = .err n := by
          simp only [tokStep, hdw]
          rw [if_neg (by rintro (hx | ⟨_, hx, _⟩) <;> exact absurd hx (by decide))]
          rw [if_pos (show ('\'' : Char) = '"' ∨ True from Or.inr trivial)]
          simp only [hscan]
        simp only [exprTokenizeLoop, hstep]
  · intro e pos h
    simp only [exprCompile, h]

/-- Claim C6, witness: the loop fails at offset 0 on "#" (unknown character)
and at offset 3 (the end of the input) on the unterminated string "'ab". -/
theorem claim_C6_wit :
    exprTokenizeLoop 1 1 ['#'] [] = .error 0 ∧
    exprTokenizeLoop 3 1 ['\'', 'a', 'b'] [] = .error 3 ∧
    exprCompile ['\'', 'a', 'b'] = .error 3 := by
  refine ⟨(claim_C6.1 1 0 ['#'] [] '#' [] rfl).1 (by decide), ?_, ?_⟩
  · exact (claim_C6.1 3 0 ['\'', 'a', 'b'] [] '\'' ['a', 'b'] rfl).2 (Or.inr rfl) rfl
  · exact claim_C6.2 ['\'', 'a', 'b'] 3 rfl

/-! ### Claim C7 -/

theorem cparenLoop_no_oparen (ops : List (ExprOp × Nat)) :
    ∀ (prog : List Tok) (si : Int) (off : Nat), (∀ x ∈ ops, x.1 ≠ .oparen) →
    ∃ p, cparenLoop ops prog si off = .error p := by
  induction ops with
  | nil => intro prog si off _; exact ⟨off, rfl⟩
  | cons x rest ih =>
    intro prog si off hx
    obtain ⟨o, toff⟩ := x
    have ho : o ≠ .oparen := hx (o, toff) (by simp)
    simp only [cparenLoop]
    rw [if_neg ho]
    by_cases har : si < exprGetOpArity o
    · rw [if_pos har]; exact ⟨toff, rfl⟩
    · rw [if_neg har]
      exact ih _ _ off (fun y hy => hx y (by simp [hy]))

theorem cparenLoop_to_marker (pre : List (ExprOp × Nat)) :
    ∀ (rest : List (ExprOp × Nat)) (prog prog2 : List Tok) (si si2 : Int) (off moff : Nat),
    (∀ x ∈ pre, x.1 ≠ .oparen) → flushOps pre prog si = .ok (prog2, si2) →
    cparenLoop (pre ++ (.oparen, moff) :: rest) prog si off = .ok (rest, prog2, si2) := by
  induction pre with
  | nil =>
    intro rest prog prog2 si si2 off moff _ hf
    simp only [flushOps] at hf
    injection hf with hf
    injection hf with h1 h2
    subst h1
    subst h2
    simp [cparenLoop]
  | cons x pre ih =>
    intro rest prog prog2 si si2 off moff hx hf
    obtain ⟨o, toff⟩ := x
    have ho : o ≠ .oparen := hx (o, toff) (by simp)
    simp only [flushOps] at hf
    rw [if_neg ho] at hf
    by_cases har : si < exprGetOpArity o
    · rw [if_pos har] at hf; cases hf
    · rw [if_neg har] at hf
      simp only [List.cons_append, cparenLoop]
      rw [if_neg ho, if_neg har]
      exact ih rest _ prog2 _ si2 off moff (fun y hy => hx y (by simp [hy])) hf

theorem flushOps_oparen_err (ops : List (ExprOp × Nat)) :
    ∀ (prog : List Tok) (si : Int), (∃ x ∈ ops, x.1 = .oparen) →
    ∃ p, flushOps ops prog si = .error p := by
  induction ops with
  | nil =>
    intro prog si hex
    rcases hex with ⟨x, hx, _⟩
    cases hx
  | cons x rest ih =>
    intro prog si hex
    obtain ⟨o, toff⟩ := x
    by_cases ho : o = .oparen
    · subst ho
      exact ⟨toff, by simp [flushOps]⟩
    · simp only [flushOps]
      rw [if_neg ho]
      by_cases har : si < exprGetOpArity o
      · rw [if_pos har]; exact ⟨toff, rfl⟩
      · rw [if_neg har]
        apply ih
        rcases hex with ⟨x, hx, hx1⟩
        rcases List.mem_cons.mp hx with rfl | hx
        · exact absurd hx1 ho
        · exact ⟨x, hx, hx1⟩

/-- Claim C7: `(` is pushed onto the operator stack as a pure marker; `)` with
no marker below it is an error; `)` pops exactly the operators above the
matching `(` to the program (the same emission `flushOps` performs) and
removes the marker; at end of input a leftover `(` anywhere in the operator
stack makes the flush fail; and the concrete expressions "1)" and "(1" fail
at the offsets of the offending parentheses. -/
theorem claim_C7 :
    (∀ (st : YardSt) (off : Nat),
      exprProcessOperator st .oparen off =
        .ok ⟨(.oparen, off) :: st.ops, st.program, st.stackItems⟩) ∧
    (∀ (st : YardSt) (off : Nat), (∀ x ∈ st.ops, x.1 ≠ .oparen) →
      ∃ p, exprProcessOperator st .cparen off = .error p) ∧
    (∀ (pre rest : List (ExprOp × Nat)) (prog prog2 : List Tok) (si si2 : Int) (off moff : Nat),
      (∀ x ∈ pre, x.1 ≠ .oparen) → flushOps pre prog si = .ok (prog2, si2) →
      exprProcessOperator ⟨pre ++ (.oparen, moff) :: rest, prog, si⟩ .cparen off =
        .ok ⟨rest, prog2, si2⟩) ∧
    (∀ (ops : List (ExprOp × Nat)) (prog : List Tok) (si : Int),
      (∃ x ∈ ops, x.1 = .oparen) → ∃ p, flushOps ops prog si = .error p) ∧
    exprCompile ['1', ')'] = .error 2 ∧
    exprCompile ['(', '1'] = .error 1 := by
  refine ⟨fun st off => rfl, ?_, ?_, fun ops prog si h => flushOps_oparen_err ops prog si h,
    rfl, rfl⟩
  · intro st off h
    obtain ⟨p, hp⟩ := cparenLoop_no_oparen st.ops st.program st.stackItems off h
    exact ⟨p, by simp [exprProcessOperator, hp]⟩
  · intro pre rest prog prog2 si si2 off moff hpre hf
    have hcl := cparenLoop_to_marker pre rest prog prog2 si si2 off moff hpre hf
    simp [exprProcessOperator, hcl]

/-! ### Claim C2 -/

/-- Claim C2, counterexample: compiling "2**3**4" emits the postfix program
2 3 ** 4 ** (left-associative), not the 2 3 4 ** ** the claim demands: the
pop loop of `exprProcessOperator` pops whenever the top's precedence is
greater *or equal*, with no special case for `**`. -/
theorem claim_C2_cx :
    exprCompile ['2', '*', '*', '3', '*', '*', '4'] =
      .ok [⟨.num ['2'], 1⟩, ⟨.num ['3'], 4⟩, ⟨.op .pow, 3⟩,
           ⟨.num ['4'], 7⟩, ⟨.op .pow, 6⟩] ∧
    [TokData.num ['2'], TokData.num ['3'], TokData.op .pow,
      TokData.num ['4'], TokData.op .pow] ≠
    [TokData.num ['2'], TokData.num ['3'], TokData.num ['4'],
      TokData.op .pow, TokData.op .pow] := by
  exact ⟨rfl, by decide⟩

/-- Claim C2, amended: a left-associative operator on top of the stack is
popped when the incoming operator has equal precedence, and `**` is no
exception: it also pops on equal precedence, so `a**b**c` compiles
left-associatively to the postfix program a b ** c **, for all decimal
literals a, b, c (nonempty digit strings short enough for the 64-byte
number buffer). -/
theorem claim_C2 (a b c : List Char) (ha : a ≠ []) (hb : b ≠ []) (hc : c ≠ [])
    (hda : ∀ x ∈ a, isDigitC x = true) (hdb : ∀ x ∈ b, isDigitC x = true)
    (hdc : ∀ x ∈ c, isDigitC x = true)
    (hla : a.length ≤ 63) (hlb : b.length ≤ 63) (hlc : c.length ≤ 63) :
    exprCompile (a ++ '*' :: '*' :: (b ++ '*' :: '*' :: c)) =
      .ok [⟨.num a, a.length⟩,
           ⟨.num b, a.length + 2 + b.length⟩,
           ⟨.op .pow, a.length + 2⟩,
           ⟨.num c, a.length + b.length + 4 + c.length⟩,
           ⟨.op .pow, a.length + b.length + 4⟩] := by
  have ha' : 1 ≤ a.length := List.length_pos.mpr ha
  have hb' : 1 ≤ b.length := List.length_pos.mpr hb
  have hc' : 1 ≤ c.length := List.length_pos.mpr hc
  have hL : (a ++ '*' :: '*' :: (b ++ '*' :: '*' :: c)).length =
      a.length + b.length + c.length + 4 := by
    simp [List.length_append]
    omega
  have hstar : ∀ ch : Char, ('*' :: '*' :: (b ++ '*' :: '*' :: c)).head? = some ch →
      isDigitC ch = false := by
    intro ch hch
    simp at hch
    rw [← hch]
    decide
  have hstar2 : ∀ ch : Char, ('*' :: '*' :: c).head? = some ch → isDigitC ch = false := by
    intro ch hch
    simp at hch
    rw [← hch]
    decide
  have hnil : ∀ ch : Char, ([] : List Char).head? = some ch → isDigitC ch = false := by
    intro ch hch
    simp at hch
  set n := (a ++ '*' :: '*' :: (b ++ '*' :: '*' :: c)).length with hn
  have hs1 := tokStep_num n [] a ('*' :: '*' :: (b ++ '*' :: '*' :: c)) ha hda hla hstar
  have hs3 : ∀ acc, tokStep n acc (b ++ '*' :: '*' :: c) =
      .tokOk ⟨.num b, n - ('*' :: '*' :: c).length⟩ ('*' :: '*' :: c) :=
    fun acc => tokStep_num n acc b ('*' :: '*' :: c) hb hdb hlb hstar2
  have hs5 : ∀ acc, tokStep n acc c = .tokOk ⟨.num c, n - ([] : List Char).length⟩ [] := by
    intro acc
    have := tokStep_num n acc c [] hc hdc hlc hnil
    simpa using this
  have htok : exprTokenize (a ++ '*' :: '*' :: (b ++ '*' :: '*' :: c)) =
      .ok [⟨.num a, n - ('*' :: '*' :: (b ++ '*' :: '*' :: c)).length⟩,
           ⟨.op .pow, n - (b ++ '*' :: '*' :: c).length⟩,
           ⟨.num b, n - ('*' :: '*' :: c).length⟩,
           ⟨.op .pow, n - c.length⟩,
           ⟨.num c, n - ([] : List Char).length⟩,
           ⟨.eof, n⟩] := by
    show exprTokenizeLoop n (n + 1) (a ++ '*' :: '*' :: (b ++ '*' :: '*' :: c)) [] = _
    simp only [exprTokenizeLoop, hs1]
    rw [exprTokenizeLoop_fuel' n n ('*' :: '*' :: (b ++ '*' :: '*' :: c)) _
      (by simp only [hn, List.length_cons, List.length_append]; omega)]
    simp only [exprTokenizeLoop, tokStep_pow, hs3]
    rw [exprTokenizeLoop_fuel' n (b ++ '*' :: '*' :: c).length c _
      (by simp only [List.length_cons, List.length_append]; omega)]
    simp only [exprTokenizeLoop, hs5]
    rw [exprTokenizeLoop_fuel' n c.length [] _ (by simp only [List.length_nil]; omega)]
    simp only [exprTokenizeLoop, tokStep_nil]
    simp
  have hcomp : exprCompile (a ++ '*' :: '*' :: (b ++ '*' :: '*' :: c)) =
      .ok [⟨.num a, n - ('*' :: '*' :: (b ++ '*' :: '*' :: c)).length⟩,
           ⟨.num b, n - ('*' :: '*' :: c).length⟩,
           ⟨.op .pow, n - (b ++ '*' :: '*' :: c).length⟩,
           ⟨.num c, n - ([] : List Char).length⟩,
           ⟨.op .pow, n - c.length⟩] := by
    simp only [exprCompile, htok]
    simp +decide [compileTokens, exprProcessOperator, popGELoop, flushOps]
  rw [hcomp]
  have e1 : n - ('*' :: '*' :: (b ++ '*' :: '*' :: c)).length = a.length := by
    simp only [hn, List.length_cons, List.length_append]
    omega
  have e2 : n - ('*' :: '*' :: c).length = a.length + 2 + b.length := by
    simp only [hn, List.length_cons, List.length_append]
    omega
  have e3 : n - (b ++ '*' :: '*' :: c).length = a.length + 2 := by
    simp only [hn, List.length_cons, List.length_append]
    omega
  have e4 : n - ([] : List Char).length = a.length + b.length + 4 + c.length := by
    simp only [hn, List.length_cons, List.length_append, List.length_nil]
    omega
  have e5 : n - c.length = a.length + b.length + 4 := by
    simp only [hn, List.length_cons, List.length_append]
    omega
  rw [e1, e2, e3, e4, e5]

/-- Claim C2, witness: the amended statement at a = "2", b = "3", c = "4". -/
theorem claim_C2_wit :
    exprCompile ['2', '*', '*', '3', '*', '*', '4'] =
      .ok [⟨.num ['2'], 1⟩, ⟨.num ['3'], 4⟩, ⟨.op .pow, 3⟩,
           ⟨.num ['4'], 7⟩, ⟨.op .pow, 6⟩] :=
  claim_C2 ['2'] ['3'] ['4'] (by decide) (by decide) (by decide) (by decide) (by decide)
    (by decide) (by decide) (by decide) (by decide)

/-! ### Claim C1 -/

theorem progDepthFrom_append (l1 : List Tok) : ∀ (l2 : List Tok) (si : Int),
    progDepthFrom si (l1 ++ l2) =
      match progDepthFrom si l1 with
      | none => none
      | some s => progDepthFrom s l2 := by
  induction l1 with
  | nil => intro l2 si; rfl
  | cons t ts ih =>
    intro l2 si
    simp only [List.cons_append, progDepthFrom]
    cases hs : progStep si t with
    | none => rfl
    | some si2 => exact ih l2 si2

theorem progDepth_snoc (prog : List Tok) (t : Tok) (si : Int)
    (h : progDepth prog = some si) : progDepth (prog ++ [t]) = progStep si t := by
  unfold progDepth at *
  rw [progDepthFrom_append, h]
  cases hs : progStep si t <;> simp [progDepthFrom, hs]

theorem cparenLoop_inv (ops : List (ExprOp × Nat)) :
    ∀ (prog : List Tok) (si : Int) (off : Nat) (ops2 : List (ExprOp × Nat))
      (prog2 : List Tok) (si2 : Int),
    cparenLoop ops prog si off = .ok (ops2, prog2, si2) → progDepth prog = some si →
    progDepth prog2 = some si2 := by
  induction ops with
  | nil => intro prog si off ops2 prog2 si2 h _; cases h
  | cons x rest ih =>
    intro prog si off ops2 prog2 si2 h hinv
    obtain ⟨o, toff⟩ := x
    simp only [cparenLoop] at h
    by_cases ho : o = .oparen
    · rw [if_pos ho] at h
      injection h with h
      injection h with h1 h
      injection h with h2 h3
      subst h2; subst h3
      exact hinv
    · rw [if_neg ho] at h
      by_cases har : si < exprGetOpArity o
      · rw [if_pos har] at h; cases h
      · rw [if_neg har] at h
        refine ih _ _ off ops2 prog2 si2 h ?_
        rw [progDepth_snoc prog ⟨.op o, toff⟩ si hinv]
        simp only [progStep]
        rw [if_neg har]

theorem popGELoop_inv (curp : Int) (ops : List (ExprOp × Nat)) :
    ∀ (prog : List Tok) (si : Int) (ops2 : List (ExprOp × Nat))
      (prog2 : List Tok) (si2 : Int),
    popGELoop curp ops prog si = .ok (ops2, prog2, si2) → progDepth prog = some si →
    progDepth prog2 = some si2 := by
  induction ops with
  | nil =>
    intro prog si ops2 prog2 si2 h hinv
    injection h with h
    injection h with h1 h
    injection h with h2 h3
    subst h2; subst h3
    exact hinv
  | cons x rest ih =>
    intro prog si ops2 prog2 si2 h hinv
    obtain ⟨o, toff⟩ := x
    simp only [popGELoop] at h
    by_cases ho : o = .oparen
    · rw [if_pos ho] at h
      injection h with h
      injection h with h1 h
      injection h with h2 h3
      subst h2; subst h3
      exact hinv
    · rw [if_neg ho] at h
      by_cases hpr : exprGetOpPrecedence o < curp
      · rw [if_pos hpr] at h
        injection h with h
        injection h with h1 h
        injection h with h2 h3
        subst h2; subst h3
        exact hinv
      · rw [if_neg hpr] at h
        by_cases har : si < exprGetOpArity o
        · rw [if_pos har] at h; cases h
        · rw [if_neg har] at h
          refine ih _ _ ops2 prog2 si2 h ?_
          rw [progDepth_snoc prog ⟨.op o, toff⟩ si hinv]
          simp only [progStep]
          rw [if_neg har]

theorem flushOps_inv (ops : List (ExprOp × Nat)) :
    ∀ (prog : List Tok) (si : Int) (prog2 : List Tok) (si2 : Int),
    flushOps ops prog si = .ok (prog2, si2) → progDepth prog = some si →
    progDepth prog2 = some si2 := by
  induction ops with
  | nil =>
    intro prog si prog2 si2 h hinv
    injection h with h
    injection h with h1 h2
    subst h1; subst h2
    exact hinv
  | cons x rest ih =>
    intro prog si prog2 si2 h hinv
    obtain ⟨o, toff⟩ := x
    simp only [flushOps] at h
    by_cases ho : o = .oparen
    · rw [if_pos ho] at h; cases h
    · rw [if_neg ho] at h
      by_cases har : si < exprGetOpArity o
      · rw [if_pos har] at h; cases h
      · rw [if_neg har] at h
        refine ih _ _ prog2 si2 h ?_
        rw [progDepth_snoc prog ⟨.op o, toff⟩ si hinv]
        simp only [progStep]
        rw [if_neg har]

theorem exprProcessOperator_inv (st : YardSt) (o : ExprOp) (off : Nat) (st2 : YardSt)
    (h : exprProcessOperator st o off = .ok st2)
    (hinv : progDepth st.program = some st.stackItems) :
    progDepth st2.program = some st2.stackItems := by
  simp only [exprProcessOperator] at h
  by_cases ho : o = .oparen
  · rw [if_pos ho] at h
    injection h with h
    subst h
    exact hinv
  · rw [if_neg ho] at h
    by_cases hc : o = .cparen
    · rw [if_pos hc] at h
      cases hcl : cparenLoop st.ops st.program st.stackItems off with
      | error p => rw [hcl] at h; cases h
      | ok r =>
        obtain ⟨ops2, prog2, si2⟩ := r
        rw [hcl] at h
        injection h with h
        subst h
        exact cparenLoop_inv st.ops st.program st.stackItems off ops2 prog2 si2 hcl hinv
    · rw [if_neg hc] at h
      cases hpl : popGELoop (exprGetOpPrecedence o) st.ops st.program st.stackItems with
      | error p => rw [hpl] at h; cases h
      | ok r =>
        obtain ⟨ops2, prog2, si2⟩ := r
        rw [hpl] at h
        injection h with h
        subst h
        exact popGELoop_inv (exprGetOpPrecedence o) st.ops st.program st.stackItems
          ops2 prog2 si2 hpl hinv

theorem compileTokens_inv (toks : List Tok) : ∀ (st st2 : YardSt),
    compileTokens toks st = .ok st2 → progDepth st.program = some st.stackItems →
    progDepth st2.program = some st2.stackItems := by
  induction toks with
  | nil =>
    intro st st2 h hinv
    injection h with h
    subst h
    exact hinv
  | cons t ts ih =>
    intro st st2 h hinv
    cases htd : t.data with
    | eof =>
      simp only [compileTokens, htd] at h
      injection h with h
      subst h
      exact hinv
    | op o =>
      simp only [compileTokens, htd] at h
      cases hpo : exprProcessOperator st o t.offset with
      | error p => rw [hpo] at h; cases h
      | ok st3 =>
        rw [hpo] at h
        exact ih st3 st2 h (exprProcessOperator_inv st o t.offset st3 hpo hinv)
    | num s =>
      simp only [compileTokens, htd] at h
      refine ih _ st2 h ?_
      show progDepth (st.program ++ [t]) = some (st.stackItems + 1)
      rw [progDepth_snoc st.program t st.stackItems hinv, progStep, htd]
    | str s =>
      simp only [compileTokens, htd] at h
      refine ih _ st2 h ?_
      show progDepth (st.program ++ [t]) = some (st.stackItems + 1)
      rw [progDepth_snoc st.program t st.stackItems hinv, progStep, htd]
    | sel s =>
      simp only [compileTokens, htd] at h
      refine ih _ st2 h ?_
      show progDepth (st.program ++ [t]) = some (st.stackItems + 1)
      rw [progDepth_snoc st.program t st.stackItems hinv, progStep, htd]

/-- Claim C1: for every expression string, `exprCompile` either returns a
program on which the compile-time stack-depth simulation ends with exactly
one value remaining, or fails with an error position and no program; the
incremental `stack_items` bookkeeping of the compiler agrees with simulating
the emitted program from scratch. -/
theorem claim_C1 (e : List Char) :
    (∃ prog, exprCompile e = .ok prog ∧ progDepth prog = some 1) ∨
    (∃ pos, exprCompile e = .error pos) := by
  cases htok : exprTokenize e with
  | error p => exact Or.inr ⟨p, by simp only [exprCompile, htok]⟩
  | ok toks =>
    cases hct : compileTokens toks ⟨[], [], 0⟩ with
    | error p => exact Or.inr ⟨p, by simp only [exprCompile, htok, hct]⟩
    | ok st =>
      cases hfl : flushOps st.ops st.program st.stackItems with
      | error p => exact Or.inr ⟨p, by simp only [exprCompile, htok, hct, hfl]⟩
      | ok pr =>
        obtain ⟨prog, si⟩ := pr
        by_cases hsi : si = 1
        · left
          refine ⟨prog, by simp only [exprCompile, htok, hct, hfl]; rw [if_pos hsi], ?_⟩
          have h1 := compileTokens_inv toks ⟨[], [], 0⟩ st hct rfl
          have h2 := flushOps_inv st.ops st.program st.stackItems prog si hfl h1
          rw [hsi] at h2
          exact h2
        · refine Or.inr ⟨(toks.getLastD ⟨.eof, 0⟩).offset, ?_⟩
          simp only [exprCompile, htok, hct, hfl]
          rw [if_neg hsi]

/-- Claim C7, witness: a `)` over the operator stack `[-]` (no marker) errors,
and a `)` over the stack `[-, (]` pops the minus to the program, leaves an
empty stack, and consumes the marker. -/
theorem claim_C7_wit :
    (∃ p, exprProcessOperator ⟨[(.diff, 3)], [], 0⟩ .cparen 7 = .error p) ∧
    exprProcessOperator ⟨[(.diff, 3), (.oparen, 1)], [⟨.num ['1'], 2⟩, ⟨.num ['2'], 3⟩], 2⟩
        .cparen 7 =
      .ok ⟨[], [⟨.num ['1'], 2⟩, ⟨.num ['2'], 3⟩, ⟨.op .diff, 3⟩], 1⟩ := by
  constructor
  · exact claim_C7.2.1 ⟨[(.diff, 3)], [], 0⟩ 7 (by decide)
  · exact claim_C7.2.2.1 [(.diff, 3)] [] [⟨.num ['1'], 2⟩, ⟨.num ['2'], 3⟩]
      [⟨.num ['1'], 2⟩, ⟨.num ['2'], 3⟩, ⟨.op .diff, 3⟩] 2 1 7 1 (by decide) rfl

/-! ### Claim C9 -/

/-- Convert a string of decimal digits to a natural number. -/
def digitsToNat : List Char → Nat → Nat
  | [], acc => acc
  | c :: rest, acc => digitsToNat rest (acc * 10 + (c.toNat - 48))

/-- Modelled from the spec: the runtime value type of the postfix VM
(`number | string | null`; the evaluator `exprRun` is not part of src/, only
the compiler is). Numbers are modelled as rationals instead of C doubles;
tuples do not exist because this compiler version cannot produce them. -/
inductive EValue where
  | num (q : Rat)
  | str (s : List Char)
  | null
deriving DecidableEq, Repr

/-- Modelled from the spec: truthiness — a non-zero number or non-empty
string is true; `null` and 0 are false. -/
def truthy : EValue → Bool
  | .num q => decide (q ≠ 0)
  | .str s => decide (s ≠ [])
  | .null => false

/-- A boolean result as the VM's numeric value 1 or 0. -/
def boolV (b : Bool) : EValue := .num (if b then 1 else 0)

/-- Numeric value of a collected literal (optional leading minus). -/
def numValue (s : List Char) : Rat :=
  match s with
  | [] => 0
  | c :: rest =>
    if c = '-' then -(digitsToNat rest 0 : Rat)
    else (digitsToNat (c :: rest) 0 : Rat)

/-- Lexicographic (strcmp-style) strict order on strings. -/
def strLt : List Char → List Char → Bool
  | [], [] => false
  | [], _ :: _ => true
  | _ :: _, [] => false
  | x :: xs, y :: ys => if x < y then true else if y < x then false else strLt xs ys

/-- Modelled from the spec: binary operator semantics of the VM. Arithmetic
requires numbers, any `null` yields `null`; `==`/`!=` and the orderings work
across equal types (strings lexicographic, numbers numeric), else `null`;
`in` requires a tuple on the right, which cannot exist here, so it yields
`null`; `and`/`or` combine truthiness. Division/modulo by zero and
non-natural exponents are modelled as `null` (the spec leaves them open). -/
def evalBin (o : ExprOp) (va vb : EValue) : EValue :=
  match o, va, vb with
  | .sum, .num x, .num y => .num (x + y)
  | .diff, .num x, .num y => .num (x - y)
  | .mult, .num x, .num y => .num (x * y)
  | .div, .num x, .num y => if y = 0 then .null else .num (x / y)
  | .mod, .num x, .num y => if y = 0 then .null else .num (x - y * (⌊x / y⌋ : Int))
  | .pow, .num x, .num y =>
    if y.den = 1 ∧ 0 ≤ y.num then .num (x ^ y.num.toNat) else .null
  | .gt, .num x, .num y => boolV (decide (y < x))
  | .gt, .str x, .str y => boolV (strLt y x)
  | .gte, .num x, .num y => boolV (decide (y ≤ x))
  | .gte, .str x, .str y => boolV (!strLt x y)
  | .lt, .num x, .num y => boolV (decide (x < y))
  | .lt, .str x, .str y => boolV (strLt x y)
  | .lte, .num x, .num y => boolV (decide (x ≤ y))
  | .lte, .str x, .str y => boolV (!strLt y x)
  | .eq, .num x, .num y => boolV (decide (x = y))
  | .eq, .str x, .str y => boolV (decide (x = y))
  | .neq, .num x, .num y => boolV (decide (x ≠ y))
  | .neq, .str x, .str y => boolV (decide (x ≠ y))
  | .opand, x, y => boolV (truthy x && truthy y)
  | .opor, x, y => boolV (truthy x || truthy y)
  | _, _, _ => .null

/-- Modelled from the spec: the postfix VM loop. Values push; `!`/`not` pops
one; other operators pop two (right operand on top); underflow aborts the
evaluation (`none`), which the caller converts to false. The JSON attribute
object is abstracted as a total lookup function (a missing key is `null`). -/
def exprRunGo : List Tok → List EValue → (List Char → EValue) → Option (List EValue)
  | [], stack, _ => some stack
  | t :: ts, stack, attrs =>
    match t.data with
    | .num s => exprRunGo ts (.num (numValue s) :: stack) attrs
    | .str s => exprRunGo ts (.str s :: stack) attrs
    | .sel s => exprRunGo ts (attrs s :: stack) attrs
    | .eof => exprRunGo ts stack attrs
    | .op o =>
      if o = .onot then
        match stack with
        | a :: rest => exprRunGo ts (boolV (!truthy a) :: rest) attrs
        | [] => none
      else
        match stack with
        | b2 :: a :: rest => exprRunGo ts (evalBin o a b2 :: rest) attrs
        | _ => none

/-- Modelled from the spec: run a compiled program and coerce the single
remaining stack value to a boolean; anything irregular is "not a match". -/
def exprRun (prog : List Tok) (attrs : List Char → EValue) : Bool :=
  match exprRunGo prog [] attrs with
  | some [v] => truthy v
  | _ => false

/-- Compile and evaluate; `none` when compilation fails. -/
def evalExpr (e : List Char) (attrs : List Char → EValue) : Option Bool :=
  match exprCompile e with
  | .ok prog => some (exprRun prog attrs)
  | .error _ => none

/-- Claim C9: compilation and evaluation are deterministic — two runs of
`evaluate(compile(e), j)` on the same expression and attributes yield the
same boolean result, and in particular `compile(e)` yields the same program
both times. -/
theorem claim_C9 (e : List Char) (j : List Char → EValue) (b1 b2 : Option Bool)
    (p1 p2 : Except Nat (List Tok))
    (h1 : evalExpr e j = b1) (h2 : evalExpr e j = b2)
    (h3 : exprCompile e = p1) (h4 : exprCompile e = p2) :
    b1 = b2 ∧ p1 = p2 :=
  ⟨h1.symm.trans h2, h3.symm.trans h4⟩

/-- Claim C9, witness: determinism instantiated at the expression "1" with
the empty attribute object. -/
theorem claim_C9_wit :
    (some true : Option Bool) = some true ∧
    (Except.ok [⟨TokData.num ['1'], 1⟩] : Except Nat (List Tok)) =
      .ok [⟨TokData.num ['1'], 1⟩] :=
  claim_C9 ['1'] (fun _ => .null) (some true) (some true)
    (.ok [⟨TokData.num ['1'], 1⟩]) (.ok [⟨TokData.num ['1'], 1⟩]) rfl rfl rfl rfl

end Expr

namespace W2v

open Expr (isSpaceC isDigitC digitsToNat)

/-- ASCII tolower, as `strcasecmp` applies to each byte. -/
def toLowerC (c : Char) : Char :=
  if 'A' ≤ c ∧ c ≤ 'Z' then Char.ofNat (c.toNat + 32) else c

/-- `strcasecmp(a, b) == 0`: equality after case folding. -/
def strcasecmpEq (a b : List Char) : Bool := a.map toLowerC == b.map toLowerC

/-- `atoi`: optional whitespace, optional sign, leading digits. -/
def atoiModel (s : List Char) : Int :=
  match s.dropWhile isSpaceC with
  | [] => 0
  | c :: rest =>
    if c = '-' then -(digitsToNat (rest.takeWhile isDigitC) 0 : Int)
    else if c = '+' then (digitsToNat (rest.takeWhile isDigitC) 0 : Int)
    else (digitsToNat ((c :: rest).takeWhile isDigitC) 0 : Int)

/-- `strtoll(s, NULL, 0)` as used for `--numele`; modelled for plain decimal
input (the hex/octal prefixes of base 0 are not modelled; the value never
influences the exit status). -/
def strtollModel (s : List Char) : Int := atoiModel s

/-- The quantization selector of w2v.c (`HNSW_QUANT_NONE/Q8/BIN`). -/
inductive QuantKind where
  | qnone | q8 | qbin
deriving DecidableEq, Repr

/-- The option state accumulated by `main`'s argument loop. -/
structure W2vCfg where
  quant : QuantKind
  numthreads : Int
  numele : Int
  massdel : Bool
  recallTest : Bool
deriving DecidableEq, Repr

/-- The defaults set at the top of `main`. -/
def w2vDefault : W2vCfg := ⟨.qnone, 0, 20000, false, false⟩

/-- Result of `main`'s argument loop: `exit(0)` at `--help`, `exit(1)` at an
unrecognized option, or completion with the accumulated configuration. -/
inductive ArgsRes where
  | helpExit
  | unknownExit
  | done (cfg : W2vCfg)
deriving DecidableEq, Repr

def optQuant : List Char := ['-', '-', 'q', 'u', 'a', 'n', 't']
def optBin : List Char := ['-', '-', 'b', 'i', 'n']
def optMassDel : List Char := ['-', '-', 'm', 'a', 's', 's', '-', 'd', 'e', 'l']
def optRecall : List Char := ['-', '-', 'r', 'e', 'c', 'a', 'l', 'l']
def optThreads : List Char := ['-', '-', 't', 'h', 'r', 'e', 'a', 'd', 's']
def optNumele : List Char := ['-', '-', 'n', 'u', 'm', 'e', 'l', 'e']
def optHelp : List Char := ['-', '-', 'h', 'e', 'l', 'p']

/-- The argument loop of `main` (w2v.c lines 278-303): the two-token options
`--threads`/`--numele` are recognized only when a following argument exists
(`moreargs >= 1`); otherwise they fall through to the unrecognized-option
exit, as does anything unknown; `--help` exits 0. -/
def parseArgs : List (List Char) → W2vCfg → ArgsRes
  | [], cfg => .done cfg
  | [a], cfg =>
    if strcasecmpEq a optQuant then parseArgs [] { cfg with quant := .q8 }
    else if strcasecmpEq a optBin then parseArgs [] { cfg with quant := .qbin }
    else if strcasecmpEq a optMassDel then parseArgs [] { cfg with massdel := true }
    else if strcasecmpEq a optRecall then parseArgs [] { cfg with recallTest := true }
    else if strcasecmpEq a optHelp then .helpExit
    else .unknownExit
  | a :: v :: rest2, cfg =>
    if strcasecmpEq a optQuant then parseArgs (v :: rest2) { cfg with quant := .q8 }
    else if strcasecmpEq a optBin then parseArgs (v :: rest2) { cfg with quant := .qbin }
    else if strcasecmpEq a optMassDel then parseArgs (v :: rest2) { cfg with massdel := true }
    else if strcasecmpEq a optRecall then parseArgs (v :: rest2) { cfg with recallTest := true }
    else if strcasecmpEq a optThreads then
      parseArgs rest2 { cfg with numthreads := atoiModel v }
    else if strcasecmpEq a optNumele then
      parseArgs rest2 { cfg with
        numele := if strtollModel v < 1 then 1 else strtollModel v }
    else if strcasecmpEq a optHelp then .helpExit
    else .unknownExit

/-- Modelled from the spec: `w2v_single_thread` calls `exit(1)` when
`word2vec.bin` cannot be opened and otherwise returns 0 after its run; the
`hnsw_*` calls it makes are external collaborators (hnsw.c is not under
src/) that per the spec complete normally. -/
def w2vSingleThread (fileOpens : Bool) : Nat := if fileOpens then 0 else 1

/-- Modelled from the spec: `w2v_multi_thread`, same exit behavior. -/
def w2vMultiThread (fileOpens : Bool) : Nat := if fileOpens then 0 else 1

/-- The exit status of `main`: argument parsing may exit directly; otherwise
the single- or multi-threaded harness runs (by `numthreads > 0`) and `main`
falls off its end, returning 0. -/
def w2vMain (args : List (List Char)) (fileOpens : Bool) : Nat :=
  match parseArgs args w2vDefault with
  | .helpExit => 0
  | .unknownExit => 1
  | .done cfg =>
    if cfg.numthreads > 0 then w2vMultiThread fileOpens else w2vSingleThread fileOpens

/-- Claim C8: the demo CLI exits 0 on a successful run (including `--help`),
and exits 1 when given an unrecognized option or when `word2vec.bin` cannot
be opened — and those are the only exit statuses. -/
theorem claim_C8 (args : List (List Char)) (fileOpens : Bool) :
    (w2vMain args fileOpens = 0 ∨ w2vMain args fileOpens = 1) ∧
    (parseArgs args w2vDefault = .helpExit → w2vMain args fileOpens = 0) ∧
    (parseArgs args w2vDefault = .unknownExit → w2vMain args fileOpens = 1) ∧
    (∀ cfg, parseArgs args w2vDefault = .done cfg → fileOpens = false →
      w2vMain args fileOpens = 1) ∧
    (∀ cfg, parseArgs args w2vDefault = .done cfg → fileOpens = true →
      w2vMain args fileOpens = 0) := by
  refine ⟨?_, ?_, ?_, ?_, ?_⟩
  · cases hp : parseArgs args w2vDefault with
    | helpExit => exact Or.inl (by simp [w2vMain, hp])
    | unknownExit => exact Or.inr (by simp [w2vMain, hp])
    | done cfg =>
      cases fileOpens with
      | true =>
        exact Or.inl (by
          simp only [w2vMain, hp]
          split <;> simp [w2vMultiThread, w2vSingleThread])
      | false =>
        exact Or.inr (by
          simp only [w2vMain, hp]
          split <;> simp [w2vMultiThread, w2vSingleThread])
  · intro hp; simp [w2vMain, hp]
  · intro hp; simp [w2vMain, hp]
  · intro cfg hp hf
    subst hf
    simp only [w2vMain, hp]
    split <;> simp [w2vMultiThread, w2vSingleThread]
  · intro cfg hp hf
    subst hf
    simp only [w2vMain, hp]
    split <;> simp [w2vMultiThread, w2vSingleThread]

/-- Claim C8, witness: `--help` exits 0 even without the input file; an
unknown option exits 1 even with the file present; no options exits 1
without the file and 0 with it. -/
theorem claim_C8_wit :
    w2vMain [optHelp] false = 0 ∧
    w2vMain [['-', '-', 'x']] true = 1 ∧
    w2vMain [] false = 1 ∧
    w2vMain [] true = 0 := by
  refine ⟨(claim_C8 [optHelp] false).2.1 rfl,
    (claim_C8 [['-', '-', 'x']] true).2.2.1 rfl,
    (claim_C8 [] false).2.2.2.1 w2vDefault rfl rfl,
    (claim_C8 [] true).2.2.2.2 w2vDefault rfl rfl⟩

end W2v

